import Mathlib

/-!
Verification of `django-planet` template tags and management command.

Shallow embedding of:
* `planet/templatetags/planet_tags.py` — the `planet_post_list` tag parser,
  `PlanetPostList.process` (date-window pagination, ordering, limit),
  the tag-cloud and related-tags inclusion tags, and the `clean_html` filter;
* `planet/management/commands/add_feed.py` — `Command.handle`.

Machine dates are modelled as integers (microsecond timestamps); strings as
Lean `String` / `List Char`.
-/

namespace Planet

/-! ## Template-tag argument parsing (`planet_post_list`) -/

/-- Errors raised by the `planet_post_list` tag function (`TemplateSyntaxError`s). -/
inductive TSE where
  | notWith : TSE
  | invalidOption (name : List Char) : TSE
  | badlyFormatted (word : List Char) : TSE
  deriving DecidableEq, Repr

/-- The `PlanetPostList` node's constructor arguments: all options default to
`None` in the Python constructor. -/
structure PlanetPostList where
  limit : Option (List Char) := none
  tag : Option (List Char) := none
  category : Option (List Char) := none
  template : Option (List Char) := none
  hidden : Option (List Char) := none
  days : Option (List Char) := none
  page : Option (List Char) := none
  deriving DecidableEq, Repr

/-- `PlanetPostList()` with no keyword arguments: every option is `None`. -/
def emptyPPL : PlanetPostList := {}

/-- The option names accepted by the tag
(`('tag', 'category', 'template', 'limit', 'hidden', 'days', 'page')`). -/
def optNames : List (List Char) :=
  ["tag".data, "category".data, "template".data, "limit".data,
    "hidden".data, "days".data, "page".data]

/-- `kwargs[str(name)] = value` followed by `PlanetPostList(**kwargs)`:
a later assignment to the same name overwrites the earlier one. -/
def setOpt (name value : List Char) (n : PlanetPostList) : PlanetPostList :=
  if name = "tag".data then { n with tag := some value }
  else if name = "category".data then { n with category := some value }
  else if name = "template".data then { n with template := some value }
  else if name = "limit".data then { n with limit := some value }
  else if name = "hidden".data then { n with hidden := some value }
  else if name = "days".data then { n with days := some value }
  else if name = "page".data then { n with page := some value }
  else n

/-- Python's `word.split('=')`: split on every `=`, keeping empty pieces
(`''.split('=') == ['']`, `'a=b='.split('=') == ['a', 'b', '']`). -/
def splitEq : List Char → List (List Char)
  | [] => [[]]
  | c :: t =>
    if c = '=' then [] :: splitEq t
    else
      match splitEq t with
      | h :: r => (c :: h) :: r
      | [] => [[c]]

/-- The `for i in range(2, len_bits)` loop: each word is split on `=`
(`name, value = bits[i].split('=')`); a split that does not yield exactly a
name and a value raises `ValueError`, reported as a badly formatted option;
an unknown name raises the invalid-option error; a valid pair is recorded
in `kwargs`. -/
def parseOpts : List (List Char) → PlanetPostList → Except TSE PlanetPostList
  | [], acc => .ok acc
  | w :: ws, acc =>
    match splitEq w with
    | [name, value] =>
      if name ∈ optNames then parseOpts ws (setOpt name value acc)
      else .error (.invalidOption name)
    | _ => .error (.badlyFormatted w)

/-- `planet_post_list(__, token)`: `bits = list(smart_split(token.contents))`
is taken as the input.  With more than one word, the second must be `with`;
the remaining words are parsed as options. -/
def planet_post_list (bits : List (List Char)) : Except TSE PlanetPostList :=
  match bits with
  | _ :: w :: rest =>
    if w = "with".data then parseOpts rest emptyPPL else .error .notWith
  | _ => .ok emptyPPL

/-! ## `PlanetPostList.process`: date windows, ordering, limit -/

/-- A post row, as far as `process` inspects it: `planet_post.date_created`
is `NOT NULL`, `planet_post.date_modified` is nullable.  Timestamps are
integer microseconds. -/
structure PostT where
  date_created : Int
  date_modified : Option Int := none
  deriving DecidableEq, Repr

/-- `COALESCE(planet_post.date_modified, planet_post.date_created)`. -/
def effDate (p : PostT) : Int := p.date_modified.getD p.date_created

/-- One day of `timedelta(days=1)`, in microseconds. -/
def DAYus : Int := 86400000000

/-- `start_date = datetime.today(); if self.page > 0: start_date -= timedelta(days=page*days)`. -/
def startDate (today days page : Int) : Int :=
  if page > 0 then today - page * days * DAYus else today

/-- `end_date = start_date - timedelta(days=self.days)`. -/
def endDate (today days page : Int) : Int :=
  startDate today days page - days * DAYus

/-- The SQL `where` clause:
`COALESCE(..) > %s AND COALESCE(..) < %s` with `params=[end_date, start_date]`. -/
def inWindow (today days page : Int) (p : PostT) : Prop :=
  endDate today days page < effDate p ∧ effDate p < startDate today days page

instance (today days page : Int) (p : PostT) :
    Decidable (inWindow today days page p) := by
  unfold inWindow; infer_instance

/-- The queryset restriction added by the `days` branch of `process`. -/
def dateFilter (today days page : Int) (posts : List PostT) : List PostT :=
  posts.filter (fun p => decide (inWindow today days page p))

/-- `if self.page is None: self.page = 0 else: self.page = int(self.page)`. -/
def pageVal (page : Option Int) : Int := page.getD 0

/-- `if self.limit is None or not self.limit: self.limit = 200`
(`None` and the falsy value `0` both become 200). -/
def limitVal (limit : Option Nat) : Nat :=
  match limit with
  | none => 200
  | some 0 => 200
  | some n => n

/-- Insert a post into a list that is sorted by effective date descending
(`order_by=['-date']`). -/
def insDesc (p : PostT) : List PostT → List PostT
  | [] => [p]
  | q :: t => if effDate q ≤ effDate p then p :: q :: t else q :: insDesc p t

/-- Sort by effective date descending (`order_by=['-date']`). -/
def sortDesc : List PostT → List PostT
  | [] => []
  | p :: t => insDesc p (sortDesc t)

/-- `process`, from the page/limit defaulting on: the optional date window,
the `order_by=['-date']`, and the final `posts[:self.limit]` slice.
(The tag/category/hidden queryset selection happens before and only
determines the input list `posts`.) -/
def process (posts : List PostT) (today : Int)
    (days : Option Int) (page : Option Int) (limit : Option Nat) : List PostT :=
  let filtered :=
    match days with
    | some d => dateFilter today d (pageVal page) posts
    | none => posts
  (sortDesc filtered).take (limitVal limit)

/-! ## `add_feed` management command -/

/-- One recorded call to `process_feed`. -/
structure FeedCall where
  url : String
  create : Bool
  category_title : Option String
  deriving DecidableEq, Repr

/-- The observable outcome of `Command.handle`. -/
structure HandleResult where
  errorLogs : List String
  exitCode : Option Nat
  calls : List FeedCall
  deriving DecidableEq, Repr

/-- `make_option('-c', '--category', ..., default=None)` then
`options['category']`: the value of the option, `None` when absent. -/
def categoryOpt (opts : List (String × String)) : Option String :=
  opts.lookup "category"

/-- `Command.handle(*args, **options)`: with no positional argument it logs
an error and calls `exit(0)`; otherwise it calls
`process_feed(args[0], create=True, category_title=options['category'])`. -/
def handle (args : List String) (opts : List (String × String)) : HandleResult :=
  match args with
  | [] => { errorLogs := ["You must provide the feed url as parameter"]
            exitCode := some 0
            calls := [] }
  | url :: _ => { errorLogs := []
                  exitCode := none
                  calls := [⟨url, true, categoryOpt opts⟩] }

/-! ## Tag clouds and related tags -/

/-- A feed row: `feed__blog` traverses the foreign key to the blog. -/
structure FeedR where
  id : Nat
  blog : Nat
  deriving DecidableEq, Repr

/-- A post row, as far as the cloud filters inspect it: its feed, the ids of
its authors (`authors` is many-to-many), and its tags. -/
structure PostR where
  feed : FeedR
  authors : List Nat
  tags : List String
  deriving DecidableEq, Repr

/-- Usage frequency of a tag: the number of posts tagged with it. -/
def tagUsage (posts : List PostR) (t : String) : Nat :=
  (posts.filter (fun p => decide (t ∈ p.tags))).length

/-- Modelled from the spec: `Tag.objects.cloud_for_model` belongs to the
external `django-tagging` package and is not under `src/`.  Per the spec a
tag cloud is "a weighted listing of tags sized by usage frequency": over the
posts selected by `filters`, every tag used at least `min_count` times is
listed, weighted by its usage count. -/
def cloud_for_model (posts : List PostR) (filters : PostR → Bool)
    (min_count : Nat) : List (String × Nat) :=
  let filtered := posts.filter filters
  let tags := ((filtered.map PostR.tags).flatten).dedup
  (tags.filter (fun t => decide (min_count ≤ tagUsage filtered t))).map
    (fun t => (t, tagUsage filtered t))

/-- `cloud_for_feed(feed, min_count=3)`:
`cloud_for_model(Post, filters={"feed": feed}, min_count=min_count)`. -/
def cloud_for_feed (posts : List PostR) (feed : FeedR)
    (min_count : Nat := 3) : List (String × Nat) :=
  cloud_for_model posts (fun p => decide (p.feed = feed)) min_count

/-- `cloud_for_author(author, min_count=3)`:
`cloud_for_model(Post, filters={"authors": author}, min_count=min_count)`. -/
def cloud_for_author (posts : List PostR) (author : Nat)
    (min_count : Nat := 3) : List (String × Nat) :=
  cloud_for_model posts (fun p => decide (author ∈ p.authors)) min_count

/-- `cloud_for_blog(blog, min_count=3)`:
`cloud_for_model(Post, filters={"feed__blog": blog}, min_count=min_count)`. -/
def cloud_for_blog (posts : List PostR) (blog : Nat)
    (min_count : Nat := 3) : List (String × Nat) :=
  cloud_for_model posts (fun p => decide (p.feed.blog = blog)) min_count

/-- Modelled from the spec: `Tag.objects.related_for_model` belongs to the
external `django-tagging` package and is not under `src/`; its result list is
taken as the abstract input.  The tag body keeps `related_tags[:count]`. -/
def related_tags_for (related_tags : List String) (count : Nat := 20) :
    List String :=
  related_tags.take count

/-! ## `clean_html` -/

/-- Match a literal pattern at the head of the input, returning the rest. -/
def stripPre : List Char → List Char → Option (List Char)
  | [], l => some l
  | _ :: _, [] => none
  | p :: ps, c :: cs => if c = p then stripPre ps cs else none

/-- The lazy tail of a pattern: `.*?` followed by the literal `lit`.  Starting
at the current position, skip non-newline characters up to the first position
where `lit` matches, and return what follows the match. -/
def findLit (lit : List Char) : List Char → Option (List Char)
  | [] => stripPre lit []
  | c :: t =>
    match stripPre lit (c :: t) with
    | some r => some r
    | none => if c = '\n' then none else findLit lit t

theorem stripPre_length {p l r : List Char} (h : stripPre p l = some r) :
    r.length + p.length = l.length := by
  induction p generalizing l with
  | nil => simp [stripPre] at h; simp [h]
  | cons x xs ih =>
    cases l with
    | nil => simp [stripPre] at h
    | cons c cs =>
      simp only [stripPre] at h
      split at h
      · have := ih h; simp at this ⊢; omega
      · exact absurd h (by simp)

theorem findLit_lt {lit l r : List Char} (hne : lit ≠ [])
    (h : findLit lit l = some r) : r.length < l.length := by
  induction l with
  | nil =>
    cases lit with
    | nil => exact absurd rfl hne
    | cons x xs => simp [findLit, stripPre] at h
  | cons c t ih =>
    simp only [findLit] at h
    split at h
    · next heq =>
      cases h
      have := stripPre_length heq
      cases lit with
      | nil => exact absurd rfl hne
      | cons x xs => simp at this ⊢; omega
    · split at h
      · exact absurd h (by simp)
      · have := ih h; simp at this ⊢; omega

/-- One `re.sub(pattern, '', html)` pass for a pattern of the form
`pre` `.*?` `lit` (fueled worker; one unit of fuel is spent per scanned
position, so `fuel = l.length` always suffices): scan left to right; at each
position where `pre` matches and the lazy tail finds `lit`, delete the whole
match and continue after it; otherwise copy one character and move on. -/
def subPatF (pre lit : List Char) : Nat → List Char → List Char
  | 0, _ => []
  | _ + 1, [] => []
  | fuel + 1, c :: t =>
    if lit = [] then c :: subPatF pre lit fuel t
    else
      match stripPre pre (c :: t) with
      | some r =>
        match findLit lit r with
        | some rest => subPatF pre lit fuel rest
        | none => c :: subPatF pre lit fuel t
      | none => c :: subPatF pre lit fuel t

/-- One `re.sub(pattern, '', html)` deletion pass for `pre` `.*?` `lit`. -/
def subPat (pre lit l : List Char) : List Char :=
  subPatF pre lit l.length l

/-- One repetition of `<br.?/>` (the `.?` is greedy and cannot match a
newline), returning the rest of the input after the tag. -/
def parseTag : List Char → Option (List Char)
  | '<' :: 'b' :: 'r' :: c :: '/' :: '>' :: r => if c = '\n' then none else some r
  | '<' :: 'b' :: 'r' :: '/' :: '>' :: r => some r
  | _ => none

theorem parseTag_lt {l r : List Char} (h : parseTag l = some r) :
    r.length + 5 ≤ l.length := by
  unfold parseTag at h
  split at h
  · split at h
    · exact absurd h (by simp)
    · cases h; simp only [List.length_cons]; omega
  · cases h; simp only [List.length_cons]; omega
  · exact absurd h (by simp)

/-- The greedy repetition count of `(<br.?/>)` from the head of the input,
together with the rest of the input after the last repetition (fueled
worker: each repetition consumes at least five characters, so
`fuel = l.length` always suffices). -/
def parseRunF : Nat → List Char → Nat × List Char
  | 0, l => (0, l)
  | fuel + 1, l =>
    match parseTag l with
    | none => (0, l)
    | some r =>
      let p := parseRunF fuel r
      (p.1 + 1, p.2)

/-- The greedy repetition count of `(<br.?/>)` from the head of the input,
with the rest of the input after the run. -/
def parseRun (l : List Char) : Nat × List Char :=
  parseRunF l.length l

theorem parseRunF_eq_of_le : ∀ {f g : Nat} (l : List Char),
    l.length ≤ f → l.length ≤ g → parseRunF f l = parseRunF g l := by
  intro f
  induction f with
  | zero =>
    intro g l hf _
    have : l = [] := List.length_eq_zero.mp (Nat.le_zero.mp hf)
    subst this
    cases g with
    | zero => rfl
    | succ g => rfl
  | succ f ih =>
    intro g l hf hg
    cases g with
    | zero =>
      have : l = [] := List.length_eq_zero.mp (Nat.le_zero.mp hg)
      subst this
      rfl
    | succ g =>
      simp only [parseRunF]
      cases hr : parseTag l with
      | none => rfl
      | some r =>
        have := parseTag_lt hr
        dsimp only
        rw [@ih g r (by omega) (by omega)]

/-- The defining equation of `parseRun`, free of fuel. -/
theorem parseRun_eq (l : List Char) :
    parseRun l = match parseTag l with
      | none => (0, l)
      | some r => ((parseRun r).1 + 1, (parseRun r).2) := by
  unfold parseRun
  cases l with
  | nil => rfl
  | cons c t =>
    simp only [List.length_cons, parseRunF]
    cases hr : parseTag (c :: t) with
    | none => rfl
    | some r =>
      have := parseTag_lt hr
      simp only [List.length_cons] at this
      dsimp only
      rw [@parseRunF_eq_of_le t.length r.length r (by omega) (by omega)]

theorem parseRun_rest_length (l : List Char) :
    (parseRun l).2.length + 5 * (parseRun l).1 ≤ l.length := by
  generalize hn : l.length = n
  induction n using Nat.strong_induction_on generalizing l with
  | _ n ih =>
    subst hn
    rw [parseRun_eq]
    cases hr : parseTag l with
    | none => simp
    | some r =>
      have h1 := parseTag_lt hr
      have h2 := ih r.length (by omega) r rfl
      dsimp only
      omega

/-- The replacement string `'<br/><br/>'`. -/
def brRepl : List Char :=
  '<' :: 'b' :: 'r' :: '/' :: '>' :: '<' :: 'b' :: 'r' :: '/' :: '>' :: []

/-- `re.sub('(<br.?/>){3,}', '<br/><br/>', html)` (fueled worker; one unit
of fuel is spent per scanned position): scan left to right; at a position
where at least three repetitions match, replace the (greedy) run by
`'<br/><br/>'` and continue after it; otherwise copy one character. -/
def subBrF : Nat → List Char → List Char
  | 0, _ => []
  | _ + 1, [] => []
  | fuel + 1, c :: t =>
    if 3 ≤ (parseRun (c :: t)).1 then brRepl ++ subBrF fuel (parseRun (c :: t)).2
    else c :: subBrF fuel t

/-- The `<br>`-collapsing pass of `clean_html`. -/
def subBr (l : List Char) : List Char :=
  subBrF l.length l

theorem subBrF_eq_of_le : ∀ {f g : Nat} (l : List Char),
    l.length ≤ f → l.length ≤ g → subBrF f l = subBrF g l := by
  intro f
  induction f with
  | zero =>
    intro g l hf _
    have : l = [] := List.length_eq_zero.mp (Nat.le_zero.mp hf)
    subst this
    cases g with
    | zero => rfl
    | succ g => rfl
  | succ f ih =>
    intro g l hf hg
    cases g with
    | zero =>
      have : l = [] := List.length_eq_zero.mp (Nat.le_zero.mp hg)
      subst this
      rfl
    | succ g =>
      cases l with
      | nil => rfl
      | cons c t =>
        simp only [subBrF]
        simp only [List.length_cons] at hf hg
        by_cases h3 : 3 ≤ (parseRun (c :: t)).1
        · have := parseRun_rest_length (c :: t)
          simp only [List.length_cons] at this
          rw [if_pos h3, if_pos h3, @ih g _ (by omega) (by omega)]
        · rw [if_neg h3, if_neg h3, @ih g t (by omega) (by omega)]

/-- The defining equations of `subBr`, free of fuel. -/
theorem subBr_nil : subBr [] = [] := rfl

theorem subBr_cons (c : Char) (t : List Char) :
    subBr (c :: t) = if 3 ≤ (parseRun (c :: t)).1 then
      brRepl ++ subBr ((parseRun (c :: t)).2)
    else c :: subBr t := by
  unfold subBr
  simp only [List.length_cons, subBrF]
  by_cases h3 : 3 ≤ (parseRun (c :: t)).1
  · have := parseRun_rest_length (c :: t)
    simp only [List.length_cons] at this
    rw [if_pos h3, if_pos h3,
      @subBrF_eq_of_le t.length (parseRun (c :: t)).2.length _ (by omega) (by omega)]
  · rw [if_neg h3, if_neg h3, @subBrF_eq_of_le t.length t.length t (by omega) (by omega)]

/-- The pattern `style=".*?"`: the literal `style="`, then lazy `.*?`,
then the closing `"` . -/
def stylePre : List Char := "style=".data ++ ['"']

/-- The pattern `<style.*?</style>"` (the trailing quote is part of the
pattern as written in the source). -/
def styleTagPre : List Char := "<style".data

def styleTagLit : List Char := "</style>".data ++ ['"']

/-- The pattern `<script.*?</script>"` (again with the trailing quote). -/
def scriptPre : List Char := "<script".data

def scriptLit : List Char := "</script>".data ++ ['"']

/-- The three deletion passes of `clean_html`, in source order, followed by
the `<br>`-collapsing pass. -/
def clean_html_chars (html : List Char) : List Char :=
  subBr (subPat scriptPre scriptLit
    (subPat styleTagPre styleTagLit
      (subPat stylePre ['"'] html)))

/-- A string wrapper recording `mark_safe`. -/
structure SafeString where
  chars : List Char
  safe : Bool
  deriving DecidableEq, Repr

/-- `django.utils.safestring.mark_safe`. -/
def mark_safe (s : List Char) : SafeString := ⟨s, true⟩

/-- The `clean_html` template filter. -/
def clean_html (html : List Char) : SafeString :=
  mark_safe (clean_html_chars html)

/-- The literal `<br/>` tag. -/
def claimTag1 : List Char := '<' :: 'b' :: 'r' :: '/' :: '>' :: []

/-- The literal `<br />` tag. -/
def claimTag2 : List Char := '<' :: 'b' :: 'r' :: ' ' :: '/' :: '>' :: []

/-- A `<br/>` or `<br />` tag, as named by the claim about `clean_html`. -/
def isBrTag (t : List Char) : Prop := t = claimTag1 ∨ t = claimTag2

/-- Strip one leading `<br/>` or `<br />` tag. -/
def claimStrip : List Char → Option (List Char)
  | '<' :: 'b' :: 'r' :: ' ' :: '/' :: '>' :: r => some r
  | '<' :: 'b' :: 'r' :: '/' :: '>' :: r => some r
  | _ => none

/-- The number of consecutive `<br/>` / `<br />` tags at the head of the
input (fueled worker; each tag is at least five characters long, so
`fuel = l.length` always suffices). -/
def claimRunF : Nat → List Char → Nat
  | 0, _ => 0
  | fuel + 1, l =>
    match claimStrip l with
    | none => 0
    | some r => claimRunF fuel r + 1

/-- The number of consecutive `<br/>` / `<br />` tags at the head. -/
def claimRun (l : List Char) : Nat := claimRunF l.length l

/-- The string holds a (single-line) match of the pattern `style=".*?"`:
the literal `style="`, then lazily matched characters that include neither a
quote nor a newline, then the closing quote. -/
def hasStyleAttr (s : List Char) : Prop :=
  ∃ p mid q, s = p ++ stylePre ++ mid ++ '"' :: q ∧ '"' ∉ mid ∧ '\n' ∉ mid

/-! ## Helper lemmas -/

/-- Ordering used by `order_by=['-date']`: effective date descending. -/
def dateDesc (a b : PostT) : Prop := effDate b ≤ effDate a

theorem mem_insDesc {x p : PostT} {l : List PostT} :
    x ∈ insDesc p l ↔ x = p ∨ x ∈ l := by
  induction l with
  | nil => simp [insDesc]
  | cons q t ih =>
    simp only [insDesc]
    split
    · simp
    · simp [ih]
      tauto

theorem pairwise_insDesc {p : PostT} {l : List PostT}
    (h : l.Pairwise dateDesc) : (insDesc p l).Pairwise dateDesc := by
  induction l with
  | nil => simp [insDesc, dateDesc]
  | cons q t ih =>
    rw [List.pairwise_cons] at h
    simp only [insDesc]
    split
    · next hqp =>
      rw [List.pairwise_cons]
      constructor
      · intro x hx
        rcases List.mem_cons.mp hx with rfl | hxt
        · exact hqp
        · exact le_trans (h.1 x hxt) hqp
      · exact List.pairwise_cons.mpr h
    · next hqp =>
      rw [List.pairwise_cons]
      constructor
      · intro x hx
        rcases mem_insDesc.mp hx with rfl | hxt
        · exact le_of_lt (lt_of_not_le hqp)
        · exact h.1 x hxt
      · exact ih h.2

theorem pairwise_sortDesc (l : List PostT) :
    (sortDesc l).Pairwise dateDesc := by
  induction l with
  | nil => simp [sortDesc]
  | cons p t ih => exact pairwise_insDesc ih

theorem mem_sortDesc {x : PostT} {l : List PostT} :
    x ∈ sortDesc l ↔ x ∈ l := by
  induction l with
  | nil => simp [sortDesc]
  | cons p t ih =>
    simp only [sortDesc, mem_insDesc, ih, List.mem_cons]

theorem mem_dateFilter {today days page : Int} {posts : List PostT} {post : PostT} :
    post ∈ dateFilter today days page posts ↔
      post ∈ posts ∧ endDate today days page < effDate post ∧
        effDate post < startDate today days page := by
  simp [dateFilter, List.mem_filter, inWindow]

theorem startDate_of_nonneg (today d : Int) {r : Int} (hr : 0 ≤ r) :
    startDate today d r = today - r * (d * DAYus) := by
  unfold startDate
  by_cases h : r > 0
  · rw [if_pos h, mul_assoc]
  · have : r = 0 := by omega
    subst this
    simp

theorem endDate_of_nonneg (today d : Int) {r : Int} (hr : 0 ≤ r) :
    endDate today d r = today - (r + 1) * (d * DAYus) := by
  unfold endDate
  rw [startDate_of_nonneg today d hr]
  ring

theorem DAYus_pos : (0 : Int) < DAYus := by norm_num [DAYus]

/-- `(t, w)` is listed by the modelled `cloud_for_model` exactly when some
selected post carries `t`, `t` is used at least `min_count` times, and `w`
is its usage count. -/
theorem mem_cloud_for_model {posts : List PostR} {f : PostR → Bool}
    {mc : Nat} {t : String} {w : Nat} :
    (t, w) ∈ cloud_for_model posts f mc ↔
      (∃ p ∈ posts.filter f, t ∈ p.tags) ∧
        mc ≤ tagUsage (posts.filter f) t ∧ w = tagUsage (posts.filter f) t := by
  unfold cloud_for_model
  simp only [List.mem_map, List.mem_filter, List.mem_dedup, List.mem_flatten,
    Prod.mk.injEq, decide_eq_true_eq]
  constructor
  · rintro ⟨t', ⟨⟨ts, ⟨⟨p, hp, rfl⟩, hts⟩⟩, hmc⟩, rfl, rfl⟩
    exact ⟨⟨p, hp, hts⟩, hmc, rfl⟩
  · rintro ⟨⟨p, hp, hts⟩, hmc, rfl⟩
    exact ⟨t, ⟨⟨p.tags, ⟨p, hp, rfl⟩, hts⟩, hmc⟩, rfl, rfl⟩

/-! ## Claim theorems: parsing, command, process, clouds -/

/-- C1: for days `d > 0` and page `p`, `process` restricts the queryset to
posts whose effective date `COALESCE(date_modified, date_created)` lies
strictly between `end_date` and `start_date`, where `start_date` is today
for page 0 and `today - p*d` days for `p > 0`, and `end_date` is always
`start_date` minus `d` days, a window of exactly `d` days. -/
theorem date_window_pagination (today d p : Int) (hd : 0 < d) :
    (p = 0 → startDate today d p = today) ∧
    (0 < p → startDate today d p = today - p * d * DAYus) ∧
    endDate today d p = startDate today d p - d * DAYus ∧
    startDate today d p - endDate today d p = d * DAYus ∧
    (∀ (posts : List PostT) (post : PostT),
      post ∈ dateFilter today d p posts ↔
        post ∈ posts ∧ endDate today d p < effDate post ∧
          effDate post < startDate today d p) ∧
    (∀ (posts : List PostT) (lim : Option Nat) (post : PostT),
      post ∈ process posts today (some d) (some p) lim →
        endDate today d p < effDate post ∧ effDate post < startDate today d p) := by
  refine ⟨?_, ?_, rfl, ?_, fun _ _ => mem_dateFilter, ?_⟩
  · intro h
    simp [startDate, h]
  · intro h
    simp [startDate, h]
  · unfold endDate
    ring
  · intro posts lim post h
    unfold process at h
    simp only [pageVal, Option.getD_some] at h
    have h1 : post ∈ sortDesc (dateFilter today d p posts) :=
      List.mem_of_mem_take h
    exact (mem_dateFilter.mp (mem_sortDesc.mp h1)).2

/-- Witness for C1 at `today = 0`, `d = 1`, `p = 0`: a post dated half a day
ago passes the date filter. -/
theorem date_window_pagination_witness :
    (⟨-43200000000, none⟩ : PostT) ∈
      dateFilter 0 1 0 [⟨-43200000000, none⟩] :=
  ((date_window_pagination 0 1 0 (by decide)).2.2.2.2.1
      [⟨-43200000000, none⟩] ⟨-43200000000, none⟩).mpr
    ⟨by decide, by decide, by decide⟩

/-- C10: for fixed `d > 0`, the windows of consecutive pages `p` and `p + 1`
are disjoint, and a post whose effective date equals the page boundary
`today - p*d` days falls in no page's window. -/
theorem date_windows_disjoint_boundary_excluded (today d p : Int)
    (hd : 0 < d) (hp : 0 ≤ p) :
    (∀ post : PostT,
      ¬(inWindow today d p post ∧ inWindow today d (p + 1) post)) ∧
    (∀ q : Int, 0 ≤ q → ∀ post : PostT,
      effDate post = today - p * d * DAYus → ¬inWindow today d q post) := by
  have hX : (0 : Int) < d * DAYus := mul_pos hd DAYus_pos
  constructor
  · rintro post ⟨⟨h1, h2⟩, ⟨h3, h4⟩⟩
    rw [endDate_of_nonneg today d hp] at h1
    rw [startDate_of_nonneg today d (by omega : (0:Int) ≤ p + 1)] at h4
    omega
  · rintro q hq post heff ⟨h1, h2⟩
    rw [endDate_of_nonneg today d hq] at h1
    rw [startDate_of_nonneg today d hq] at h2
    rw [heff, mul_assoc] at h1 h2
    have hpq : q * (d * DAYus) < p * (d * DAYus) := by omega
    have hqp : p * (d * DAYus) < (q + 1) * (d * DAYus) := by omega
    have h5 : q < p := lt_of_mul_lt_mul_right hpq (le_of_lt hX)
    have h6 : p < q + 1 := lt_of_mul_lt_mul_right hqp (le_of_lt hX)
    omega

/-- Witness for C10 at `today = 0`, `d = 1`, `p = 0`: no post is in the
windows of both page 0 and page 1, and a post dated exactly today is in no
window. -/
theorem date_windows_disjoint_boundary_excluded_witness :
    ¬(inWindow 0 1 0 ⟨-1, none⟩ ∧ inWindow 0 1 1 ⟨-1, none⟩) :=
  (date_windows_disjoint_boundary_excluded 0 1 0 (by decide) (by decide)).1
    ⟨-1, none⟩

/-- C2: with more than one word in the token, a second word other than
`with` raises `TemplateSyntaxError` and no node is built; a token holding
only the tag name yields a `PlanetPostList` with every option `None`. -/
theorem tag_parsing_with_marker :
    (∀ (b0 w : List Char) (rest : List (List Char)), w ≠ "with".data →
      planet_post_list (b0 :: w :: rest) = .error .notWith) ∧
    (∀ b0 : List Char, planet_post_list [b0] = .ok emptyPPL) ∧
    emptyPPL.limit = none ∧ emptyPPL.tag = none ∧ emptyPPL.category = none ∧
    emptyPPL.template = none ∧ emptyPPL.hidden = none ∧
    emptyPPL.days = none ∧ emptyPPL.page = none := by
  refine ⟨?_, ?_, rfl, rfl, rfl, rfl, rfl, rfl, rfl⟩
  · intro b0 w rest hw
    simp [planet_post_list, hw]
  · intro b0
    rfl

/-- Witness for C2: a second word other than `with` is rejected. -/
theorem tag_parsing_with_marker_witness :
    planet_post_list ["planet_post_list".data, "limit=10".data] =
      .error .notWith :=
  tag_parsing_with_marker.1 "planet_post_list".data "limit=10".data []
    (by decide)

/-- C3: each option word after `with` is split on `=`; a word that does not
split into exactly a name and a value is a badly formatted option, a name
outside the seven known options is an invalid option, and a valid pair is
recorded as the corresponding keyword argument of the node. -/
theorem tag_parsing_options :
    (∀ (w : List Char) (ws : List (List Char)) (acc : PlanetPostList)
        (name value : List Char),
      splitEq w = [name, value] → name ∉ optNames →
        parseOpts (w :: ws) acc = .error (.invalidOption name)) ∧
    (∀ (w : List Char) (ws : List (List Char)) (acc : PlanetPostList),
      (splitEq w).length ≠ 2 →
        parseOpts (w :: ws) acc = .error (.badlyFormatted w)) ∧
    (∀ (w : List Char) (ws : List (List Char)) (acc : PlanetPostList)
        (name value : List Char),
      splitEq w = [name, value] → name ∈ optNames →
        parseOpts (w :: ws) acc = parseOpts ws (setOpt name value acc)) ∧
    (∀ (v : List Char) (a : PlanetPostList),
      (setOpt "tag".data v a).tag = some v ∧
      (setOpt "category".data v a).category = some v ∧
      (setOpt "template".data v a).template = some v ∧
      (setOpt "limit".data v a).limit = some v ∧
      (setOpt "hidden".data v a).hidden = some v ∧
      (setOpt "days".data v a).days = some v ∧
      (setOpt "page".data v a).page = some v) := by
  refine ⟨?_, ?_, ?_, ?_⟩
  · intro w ws acc name value hsplit hname
    simp only [parseOpts, hsplit]
    simp [hname]
  · intro w ws acc hlen
    simp only [parseOpts]
    cases h : splitEq w with
    | nil => rfl
    | cons a t =>
      cases t with
      | nil => rfl
      | cons b t2 =>
        cases t2 with
        | nil => rw [h] at hlen; simp at hlen
        | cons c t3 => rfl
  · intro w ws acc name value hsplit hname
    simp only [parseOpts, hsplit]
    simp [hname]
  · intro v a
    refine ⟨rfl, ?_, ?_, ?_, ?_, ?_, ?_⟩ <;> simp [setOpt]

/-- Witness for C3: an unknown option name is rejected as invalid. -/
theorem tag_parsing_options_witness :
    parseOpts ["foo=1".data] emptyPPL = .error (.invalidOption "foo".data) :=
  tag_parsing_options.1 "foo=1".data [] emptyPPL "foo".data "1".data
    (by decide) (by decide)

/-- C4: with at least one positional argument, `Command.handle` calls
`process_feed` exactly once, with the first positional argument as the url,
`create=True`, and `category_title` equal to the `--category` option, which
is `None` when absent. -/
theorem add_feed_delegates :
    (∀ (url : String) (rest : List String) (opts : List (String × String)),
      (handle (url :: rest) opts).calls = [⟨url, true, categoryOpt opts⟩] ∧
      (handle (url :: rest) opts).exitCode = none) ∧
    (∀ opts : List (String × String),
      (∀ v, ("category", v) ∉ opts) → categoryOpt opts = none) := by
  constructor
  · intro url rest opts
    exact ⟨rfl, rfl⟩
  · intro opts h
    unfold categoryOpt
    induction opts with
    | nil => rfl
    | cons kv t ih =>
      obtain ⟨k, v⟩ := kv
      have hk : k ≠ "category" := by
        intro hk
        exact h v (by simp [hk])
      have hbeq : ("category" == k) = false := by
        rw [beq_eq_false_iff_ne]
        exact fun e => hk e.symm
      simp only [List.lookup, hbeq]
      exact ih (fun v' hv' => h v' (List.mem_cons_of_mem _ hv'))

/-- Witness for C4: a call with one url and no `--category`. -/
theorem add_feed_delegates_witness :
    (handle ["http://example.com/feed", "x"] []).calls =
      [⟨"http://example.com/feed", true, categoryOpt []⟩] ∧
    categoryOpt [] = none :=
  ⟨(add_feed_delegates.1 "http://example.com/feed" ["x"] []).1,
    add_feed_delegates.2 [] (by simp)⟩

/-- C8 (implicit): with no positional argument, `Command.handle` logs the
error, exits with status 0, and never calls `process_feed`. -/
theorem add_feed_no_args (opts : List (String × String)) :
    handle [] opts =
      { errorLogs := ["You must provide the feed url as parameter"]
        exitCode := some 0
        calls := [] } := rfl

/-- C5: the posts placed in the context are ordered by
`COALESCE(date_modified, date_created)` descending and truncated to at most
`limit` entries; the limit defaults to 200 when the option is `None` or
falsy. -/
theorem post_list_order_and_limit (posts : List PostT) (today : Int)
    (days : Option Int) (page : Option Int) (limit : Option Nat) :
    (process posts today days page limit).Pairwise dateDesc ∧
    (process posts today days page limit).length ≤ limitVal limit ∧
    limitVal none = 200 ∧ limitVal (some 0) = 200 ∧
    (∀ n : Nat, n ≠ 0 → limitVal (some n) = n) := by
  refine ⟨?_, ?_, rfl, rfl, ?_⟩
  · unfold process
    exact (pairwise_sortDesc _).sublist (List.take_sublist _ _)
  · unfold process
    exact le_trans (List.length_take_le _ _) (le_refl _)
  · intro n hn
    cases n with
    | zero => exact absurd rfl hn
    | succ m => rfl

/-- Witness for C5 (for the defaulting conjunct, which carries a
hypothesis): a nonzero limit is kept. -/
theorem post_list_order_and_limit_witness :
    limitVal (some 10) = 10 :=
  (post_list_order_and_limit [] 0 none none (some 10)).2.2.2.2 10 (by decide)

/-- C6: the three cloud tags compute the modelled tag cloud over the posts
of the given feed, author, or blog's feeds: exactly the tags carried by some
selected post and used at least `min_count` times (default 3), weighted by
usage count. -/
theorem cloud_tags_weighted_min_count :
    (∀ (posts : List PostR) (feed : FeedR) (mc : Nat) (t : String) (w : Nat),
      (t, w) ∈ cloud_for_feed posts feed mc ↔
        ((∃ p ∈ posts.filter (fun p => decide (p.feed = feed)), t ∈ p.tags) ∧
          mc ≤ tagUsage (posts.filter (fun p => decide (p.feed = feed))) t ∧
          w = tagUsage (posts.filter (fun p => decide (p.feed = feed))) t)) ∧
    (∀ (posts : List PostR) (author : Nat) (mc : Nat) (t : String) (w : Nat),
      (t, w) ∈ cloud_for_author posts author mc ↔
        ((∃ p ∈ posts.filter (fun p => decide (author ∈ p.authors)), t ∈ p.tags) ∧
          mc ≤ tagUsage (posts.filter (fun p => decide (author ∈ p.authors))) t ∧
          w = tagUsage (posts.filter (fun p => decide (author ∈ p.authors))) t)) ∧
    (∀ (posts : List PostR) (blog : Nat) (mc : Nat) (t : String) (w : Nat),
      (t, w) ∈ cloud_for_blog posts blog mc ↔
        ((∃ p ∈ posts.filter (fun p => decide (p.feed.blog = blog)), t ∈ p.tags) ∧
          mc ≤ tagUsage (posts.filter (fun p => decide (p.feed.blog = blog))) t ∧
          w = tagUsage (posts.filter (fun p => decide (p.feed.blog = blog))) t)) ∧
    (∀ (posts : List PostR) (feed : FeedR),
      cloud_for_feed posts feed = cloud_for_feed posts feed 3) ∧
    (∀ (posts : List PostR) (author : Nat),
      cloud_for_author posts author = cloud_for_author posts author 3) ∧
    (∀ (posts : List PostR) (blog : Nat),
      cloud_for_blog posts blog = cloud_for_blog posts blog 3) :=
  ⟨fun _ _ _ _ _ => mem_cloud_for_model,
    fun _ _ _ _ _ => mem_cloud_for_model,
    fun _ _ _ _ _ => mem_cloud_for_model,
    fun _ _ => rfl, fun _ _ => rfl, fun _ _ => rfl⟩

/-- C7: `related_tags_for` returns at most `count` tags (default 20), taken
as a prefix of the related-tags list. -/
theorem related_tags_limited (related_tags : List String) (count : Nat) :
    (related_tags_for related_tags count).length ≤ count ∧
    related_tags_for related_tags count ++ related_tags.drop count =
      related_tags ∧
    related_tags_for related_tags = related_tags_for related_tags 20 :=
  ⟨List.length_take_le count related_tags,
    List.take_append_drop count related_tags, rfl⟩

/-! ## Helper lemmas for `clean_html`'s `<br>`-collapsing pass -/

theorem claimStrip_some {s w : List Char} (h : claimStrip s = some w) :
    s = claimTag1 ++ w ∨ s = claimTag2 ++ w := by
  unfold claimStrip at h
  split at h
  · cases h
    right
    rfl
  · cases h
    left
    rfl
  · exact absurd h (by simp)

theorem claimStrip_lt {s w : List Char} (h : claimStrip s = some w) :
    w.length + 5 ≤ s.length := by
  rcases claimStrip_some h with rfl | rfl <;>
    simp [claimTag1, claimTag2]

theorem claimStrip_ne {c : Char} (t : List Char) (hc : c ≠ '<') :
    claimStrip (c :: t) = none := by
  cases hcs : claimStrip (c :: t) with
  | none => rfl
  | some w =>
    exfalso
    rcases claimStrip_some hcs with h | h <;>
      (simp [claimTag1, claimTag2] at h; exact hc h.1)

theorem claimRunF_eq_of_le : ∀ {f g : Nat} (l : List Char),
    l.length ≤ f → l.length ≤ g → claimRunF f l = claimRunF g l := by
  intro f
  induction f with
  | zero =>
    intro g l hf _
    have : l = [] := List.length_eq_zero.mp (Nat.le_zero.mp hf)
    subst this
    cases g with
    | zero => rfl
    | succ g => rfl
  | succ f ih =>
    intro g l hf hg
    cases g with
    | zero =>
      have : l = [] := List.length_eq_zero.mp (Nat.le_zero.mp hg)
      subst this
      rfl
    | succ g =>
      simp only [claimRunF]
      cases hr : claimStrip l with
      | none => rfl
      | some r =>
        have := claimStrip_lt hr
        dsimp only
        rw [@ih g r (by omega) (by omega)]

theorem claimRun_of_none {l : List Char} (h : claimStrip l = none) :
    claimRun l = 0 := by
  cases l with
  | nil => rfl
  | cons c t =>
    unfold claimRun
    simp only [List.length_cons, claimRunF, h]

theorem claimRun_of_some {l r : List Char} (h : claimStrip l = some r) :
    claimRun l = claimRun r + 1 := by
  cases l with
  | nil => exact absurd h (by simp [claimStrip])
  | cons c t =>
    unfold claimRun
    simp only [List.length_cons, claimRunF, h]
    have := claimStrip_lt h
    simp only [List.length_cons] at this
    rw [@claimRunF_eq_of_le t.length r.length r (by omega) (by omega)]

theorem claimStrip_tag1 (w : List Char) : claimStrip (claimTag1 ++ w) = some w := rfl

theorem claimStrip_tag2 (w : List Char) : claimStrip (claimTag2 ++ w) = some w := rfl

theorem claimRun_brTag {t : List Char} (h : isBrTag t) (w : List Char) :
    claimRun (t ++ w) = claimRun w + 1 := by
  rcases h with rfl | rfl
  · exact claimRun_of_some (claimStrip_tag1 w)
  · exact claimRun_of_some (claimStrip_tag2 w)

theorem claimRun_cons_ne {c : Char} (t : List Char) (hc : c ≠ '<') :
    claimRun (c :: t) = 0 :=
  claimRun_of_none (claimStrip_ne t hc)

theorem parseTag_tag1 (w : List Char) : parseTag (claimTag1 ++ w) = some w := rfl

theorem parseTag_tag2 (w : List Char) : parseTag (claimTag2 ++ w) = some w := rfl

theorem parseRun_rest_parseTag (l : List Char) :
    parseTag (parseRun l).2 = none := by
  generalize hn : l.length = n
  induction n using Nat.strong_induction_on generalizing l with
  | _ n ih =>
    subst hn
    rw [parseRun_eq]
    cases hr : parseTag l with
    | none => exact hr
    | some r =>
      have := parseTag_lt hr
      exact ih r.length (by omega) r rfl

theorem parseRun_of_none {l : List Char} (h : parseTag l = none) :
    parseRun l = (0, l) := by
  rw [parseRun_eq, h]

theorem parseRun_of_some {l r : List Char} (h : parseTag l = some r) :
    parseRun l = ((parseRun r).1 + 1, (parseRun r).2) := by
  rw [parseRun_eq, h]

/-- A replaced run strictly shrinks the remaining input. -/
theorem parseRun_rest_lt {c : Char} {t : List Char}
    (h : 3 ≤ (parseRun (c :: t)).1) :
    (parseRun (c :: t)).2.length < t.length + 1 := by
  have := parseRun_rest_length (c :: t)
  simp only [List.length_cons] at this
  omega

/-- After the replaced run, the repetition count starts at zero again. -/
theorem claimRun_subBr_rest (l : List Char) :
    (parseRun ((parseRun l).2)).1 = 0 := by
  rw [parseRun_of_none (parseRun_rest_parseTag l)]

/-- Characters of `subBr`'s output that contain no `'<'` are copied verbatim
from the input: a `'<'`-free prefix of the output is a prefix of the input,
and the rest of the output is `subBr` of the rest of the input. -/
theorem subBr_copy_decomp (l : List Char) :
    ∀ x r : List Char, subBr l = x ++ r → '<' ∉ x →
      ∃ m, l = x ++ m ∧ r = subBr m := by
  generalize hn : l.length = n
  induction n using Nat.strong_induction_on generalizing l with
  | _ n ih =>
    subst hn
    intro x r heq hlt
    cases l with
    | nil =>
      rw [subBr_nil] at heq
      obtain ⟨hx, hr⟩ := List.append_eq_nil.mp heq.symm
      subst hx
      subst hr
      exact ⟨[], rfl, rfl⟩
    | cons c t =>
      rw [subBr_cons] at heq
      by_cases h3 : 3 ≤ (parseRun (c :: t)).1
      · rw [if_pos h3] at heq
        cases x with
        | nil =>
          refine ⟨c :: t, rfl, ?_⟩
          rw [subBr_cons, if_pos h3]
          simpa using heq.symm
        | cons d x' =>
          exfalso
          apply hlt
          simp only [brRepl, List.cons_append] at heq
          injection heq with hd _
          simp [← hd]
      · rw [if_neg h3] at heq
        cases x with
        | nil =>
          refine ⟨c :: t, rfl, ?_⟩
          rw [subBr_cons, if_neg h3]
          simpa using heq.symm
        | cons d x' =>
          rw [List.cons_append] at heq
          injection heq with hd ht
          have hlt' : '<' ∉ x' := fun hx => hlt (List.mem_cons_of_mem _ hx)
          obtain ⟨m, hm1, hm2⟩ :=
            ih t.length (by simp) t rfl x' r ht hlt'
          exact ⟨m, by rw [List.cons_append, ← hd, ← hm1], hm2⟩

/-- If at the head of the input at most two `<br.?/>` repetitions match,
then the output of `subBr` starts with at most that many `<br/>`/`<br />`
tags. -/
theorem claimRun_subBr_le (l : List Char) :
    (parseRun l).1 ≤ 2 → claimRun (subBr l) ≤ (parseRun l).1 := by
  generalize hn : l.length = n
  induction n using Nat.strong_induction_on generalizing l with
  | _ n ih =>
    subst hn
    intro hle
    cases l with
    | nil => simp [subBr_nil, claimRun, claimRunF]
    | cons c t =>
      have h3 : ¬ 3 ≤ (parseRun (c :: t)).1 := by omega
      rw [subBr_cons, if_neg h3]
      cases hcs : claimStrip (c :: subBr t) with
      | none => rw [claimRun_of_none hcs]; omega
      | some w =>
        rw [claimRun_of_some hcs]
        rcases claimStrip_some hcs with h | h
        · -- the head tag is `<br/>`
          simp only [claimTag1, List.cons_append, List.nil_append] at h
          injection h with hc h2
          obtain ⟨m, hm1, hm2⟩ := subBr_copy_decomp t
            ('b' :: 'r' :: '/' :: '>' :: []) w (by simpa using h2) (by decide)
          have hct : c :: t = claimTag1 ++ m := by
            rw [hc, hm1]
            rfl
          have hpt : parseTag (c :: t) = some m := by
            rw [hct]
            exact parseTag_tag1 m
          have hpr := parseRun_of_some hpt
          have hlen : m.length < t.length + 1 := by
            have := congrArg List.length hm1
            simp at this
            omega
          have hm2' : claimRun w ≤ (parseRun m).1 := by
            rw [hm2]
            exact ih m.length (by simpa using hlen) m rfl
              (by rw [hpr] at hle; dsimp at hle; omega)
          rw [hpr] at hle ⊢
          dsimp at hle ⊢
          omega
        · -- the head tag is `<br />`
          simp only [claimTag2, List.cons_append, List.nil_append] at h
          injection h with hc h2
          obtain ⟨m, hm1, hm2⟩ := subBr_copy_decomp t
            ('b' :: 'r' :: ' ' :: '/' :: '>' :: []) w (by simpa using h2) (by decide)
          have hct : c :: t = claimTag2 ++ m := by
            rw [hc, hm1]
            rfl
          have hpt : parseTag (c :: t) = some m := by
            rw [hct]
            exact parseTag_tag2 m
          have hpr := parseRun_of_some hpt
          have hlen : m.length < t.length + 1 := by
            have := congrArg List.length hm1
            simp at this
            omega
          have hm2' : claimRun w ≤ (parseRun m).1 := by
            rw [hm2]
            exact ih m.length (by simpa using hlen) m rfl
              (by rw [hpr] at hle; dsimp at hle; omega)
          rw [hpr] at hle ⊢
          dsimp at hle ⊢
          omega

/-- `claimRun (subBr (parseRun l).2) = 0`: immediately after a replaced run
nothing of the output starts with a `<br/>`/`<br />` tag. -/
theorem claimRun_subBr_parseRun_rest (l : List Char) :
    claimRun (subBr (parseRun l).2) = 0 := by
  have h0 := claimRun_subBr_rest l
  have := claimRun_subBr_le (parseRun l).2 (by omega)
  omega

/-- The central invariant: no suffix of `subBr`'s output starts with three
or more consecutive `<br/>` / `<br />` tags. -/
theorem subBr_no_three_run (l : List Char) :
    ∀ p q : List Char, subBr l = p ++ q → claimRun q ≤ 2 := by
  generalize hn : l.length = n
  induction n using Nat.strong_induction_on generalizing l with
  | _ n ih =>
    subst hn
    intro p q heq
    cases l with
    | nil =>
      rw [subBr_nil] at heq
      obtain ⟨-, hq⟩ := List.append_eq_nil.mp heq.symm
      subst hq
      simp [claimRun, claimRunF]
    | cons c t =>
      rw [subBr_cons] at heq
      by_cases h3 : 3 ≤ (parseRun (c :: t)).1
      · rw [if_pos h3] at heq
        have hlen : (parseRun (c :: t)).2.length < t.length + 1 :=
          parseRun_rest_lt h3
        rcases List.append_eq_append_iff.mp heq with ⟨a', _, ha2⟩ | ⟨c', hc1, hc2⟩
        · exact ih (parseRun (c :: t)).2.length (by simpa using hlen)
            (parseRun (c :: t)).2 rfl a' q ha2
        · have hz : claimRun (subBr (parseRun (c :: t)).2) = 0 :=
            claimRun_subBr_parseRun_rest (c :: t)
          have hc' : c' = brRepl.drop p.length := by
            rw [hc1]
            exact (List.drop_left p c').symm
          have hlp : p.length ≤ 10 := by
            have := congrArg List.length hc1
            simp [brRepl] at this
            omega
          subst hc2
          rw [hc']
          have h10 : p.length = 0 ∨ p.length = 1 ∨ p.length = 2 ∨
              p.length = 3 ∨ p.length = 4 ∨ p.length = 5 ∨ p.length = 6 ∨
              p.length = 7 ∨ p.length = 8 ∨ p.length = 9 ∨ p.length = 10 := by
            omega
          rcases h10 with h|h|h|h|h|h|h|h|h|h|h <;> rw [h]
          · rw [List.drop_zero,
              show brRepl = claimTag1 ++ claimTag1 from rfl, List.append_assoc,
              claimRun_brTag (Or.inl rfl), claimRun_brTag (Or.inl rfl), hz]
          · rw [show brRepl.drop 1 =
                'b' :: 'r' :: '/' :: '>' :: claimTag1 from rfl,
              List.cons_append, claimRun_cons_ne _ (by decide)]
            omega
          · rw [show brRepl.drop 2 = 'r' :: '/' :: '>' :: claimTag1 from rfl,
              List.cons_append, claimRun_cons_ne _ (by decide)]
            omega
          · rw [show brRepl.drop 3 = '/' :: '>' :: claimTag1 from rfl,
              List.cons_append, claimRun_cons_ne _ (by decide)]
            omega
          · rw [show brRepl.drop 4 = '>' :: claimTag1 from rfl,
              List.cons_append, claimRun_cons_ne _ (by decide)]
            omega
          · rw [show brRepl.drop 5 = claimTag1 from rfl,
              claimRun_brTag (Or.inl rfl), hz]
            omega
          · rw [show brRepl.drop 6 = 'b' :: 'r' :: '/' :: '>' :: [] from rfl,
              List.cons_append, claimRun_cons_ne _ (by decide)]
            omega
          · rw [show brRepl.drop 7 = 'r' :: '/' :: '>' :: [] from rfl,
              List.cons_append, claimRun_cons_ne _ (by decide)]
            omega
          · rw [show brRepl.drop 8 = '/' :: '>' :: [] from rfl,
              List.cons_append, claimRun_cons_ne _ (by decide)]
            omega
          · rw [show brRepl.drop 9 = '>' :: [] from rfl,
              List.cons_append, claimRun_cons_ne _ (by decide)]
            omega
          · rw [show brRepl.drop 10 = [] from rfl, List.nil_append, hz]
            omega
      · rw [if_neg h3] at heq
        cases p with
        | nil =>
          have hq : q = subBr (c :: t) := by
            rw [subBr_cons, if_neg h3]
            simpa using heq.symm
          rw [hq]
          exact le_trans (claimRun_subBr_le (c :: t) (by omega)) (by omega)
        | cons d p' =>
          rw [List.cons_append] at heq
          injection heq with hd ht
          exact ih t.length (by simp) t rfl p' q ht

/-- C9 counterexample: on input `stystyle="x"le="y"` the style-attribute
pass deletes `style="x"` and thereby splices `sty` and `le="y"` into
`style="y"`, so the output of `clean_html` still contains a single-line
substring matching `style=".*?"`. -/
theorem clean_html_style_attr_counterexample :
    hasStyleAttr (clean_html ("stystyle=\"x\"le=\"y\"".data)).chars := by
  refine ⟨[], ['y'], [], ?_, by decide, by decide⟩
  decide

/-- C9 (amended): for every input, the output of `clean_html` contains no
run of three or more consecutive `<br/>` / `<br />` tags — every matched
run having been replaced by exactly `<br/><br/>` — and is returned marked
safe.  (The original claim's style-attribute clause fails: the single
deletion pass can splice surrounding text into a new `style="..."`
occurrence.) -/
theorem clean_html_no_br_runs_and_safe :
    (∀ html : List Char, (clean_html html).safe = true) ∧
    (∀ html p t1 t2 t3 q : List Char,
      isBrTag t1 → isBrTag t2 → isBrTag t3 →
        (clean_html html).chars ≠ p ++ (t1 ++ (t2 ++ (t3 ++ q)))) ∧
    (∀ (c : Char) (t : List Char), 3 ≤ (parseRun (c :: t)).1 →
      subBr (c :: t) = brRepl ++ subBr (parseRun (c :: t)).2) := by
  refine ⟨fun _ => rfl, ?_, ?_⟩
  · intro html p t1 t2 t3 q h1 h2 h3 heq
    have hb := subBr_no_three_run
      (subPat scriptPre scriptLit (subPat styleTagPre styleTagLit
        (subPat stylePre ['"'] html))) p (t1 ++ (t2 ++ (t3 ++ q))) heq
    rw [claimRun_brTag h1, claimRun_brTag h2, claimRun_brTag h3] at hb
    omega
  · intro c t h
    rw [subBr_cons, if_pos h]

/-- Witness for the amended C9: no output of `clean_html` starts with three
`<br/>` tags. -/
theorem clean_html_no_br_runs_and_safe_witness :
    (clean_html "x".data).chars ≠
      [] ++ (claimTag1 ++ (claimTag1 ++ (claimTag1 ++ []))) :=
  clean_html_no_br_runs_and_safe.2.1 "x".data [] claimTag1 claimTag1 claimTag1
    [] (Or.inl rfl) (Or.inl rfl) (Or.inl rfl)

end Planet
